import Mathlib

/-!
Shallow embedding of the wash repository's core data and algorithms that the
specification's claims are about: the RQL numeric / null / name / object
predicates (marshalling, unmarshalling, evaluation), the plugin entry-schema
graph assembly (`EntrySchema.fill`, `NewEntrySchema`), the volume filesystem
fixture semantics, and the GCP dataflow job-message reader.  Each claim is
settled by one theorem at the end of the file.
-/

/-!
## Arbitrary-precision decimals (the shopspring/decimal subset used by RQL)

The numeric predicate in `predicate/numeric.go` stores its operand as a
`decimal.Decimal`.  A decimal is modelled as an integer mantissa with a
base-10 scale: the denoted value is `man / 10 ^ scale`.  This covers every
decimal produced by `decimal.NewFromString` on a plain decimal literal and
every decimal the predicate marshaller prints.
-/

structure Dec where
  man : Int
  scale : Nat
deriving DecidableEq

def decZero : Dec := ⟨0, 0⟩

/-- The rational number a decimal denotes. -/
def Dec.toRat (d : Dec) : ℚ := (d.man : ℚ) / (10 : ℚ) ^ d.scale

/-- `a.LessThan(b)`: compares after aligning the exponents, i.e. by
cross-multiplying the mantissas with the other operand's scale factor. -/
def decLT (a b : Dec) : Bool :=
  decide (a.man * (10 : Int) ^ b.scale < b.man * (10 : Int) ^ a.scale)

/-- `a.LessThanOrEqual(b)`. -/
def decLE (a b : Dec) : Bool :=
  decide (a.man * (10 : Int) ^ b.scale ≤ b.man * (10 : Int) ^ a.scale)

/-- `a.Equal(b)`. -/
def decEQ (a b : Dec) : Bool :=
  decide (a.man * (10 : Int) ^ b.scale = b.man * (10 : Int) ^ a.scale)

/-! ### Decimal digits and strings -/

/-- Base-10 digits of a natural number, little endian, with explicit fuel so
that the definition is structural (the kernel can evaluate it). -/
def natDigitsAux : Nat → Nat → List Nat
  | 0, _ => []
  | fuel + 1, n => if n = 0 then [] else n % 10 :: natDigitsAux fuel (n / 10)

def natDigits (n : Nat) : List Nat := natDigitsAux n n

/-- Value of a little-endian digit list. -/
def lowNat (ds : List Nat) : Nat := ds.foldr (fun d a => d + 10 * a) 0

/-- Decimal digit characters of a natural number, big endian (`"0"` for 0). -/
def natDigitChars (n : Nat) : List Char :=
  if n = 0 then ['0'] else ((natDigits n).map Nat.digitChar).reverse

def digitVal (c : Char) : Nat := c.toNat - 48

def isDigitCh (c : Char) : Bool := 48 ≤ c.toNat && c.toNat ≤ 57

/-- Value of a big-endian digit character list. -/
def digitsToNat (cs : List Char) : Nat :=
  cs.foldl (fun acc c => 10 * acc + digitVal c) 0

/-- Digit characters of `|man|`, left-padded with zeros so that there are at
least `scale + 1` of them (shopspring prints at least one integer digit). -/
def decDigits (d : Dec) : List Char :=
  let ds0 := natDigitChars d.man.natAbs
  List.replicate (d.scale + 1 - ds0.length) '0' ++ ds0

def decIntChars (d : Dec) : List Char :=
  (decDigits d).take ((decDigits d).length - d.scale)

def decFracChars (d : Dec) : List Char :=
  (decDigits d).drop ((decDigits d).length - d.scale)

/-- `decimal.Decimal.String()`: optional sign, integer digits, and (when the
scale is positive) a point followed by exactly `scale` fractional digits. -/
def decToChars (d : Dec) : List Char :=
  (if d.man < 0 then ['-'] else []) ++ decIntChars d ++
    (if d.scale = 0 then [] else '.' :: decFracChars d)

def decToString (d : Dec) : String := String.mk (decToChars d)

/-- Helper for `parseUDec`: `ip` is the integer part, `rest` what follows. -/
def parseUDecAux (ip rest : List Char) : Option Dec :=
  match rest with
  | [] =>
      if !ip.isEmpty && ip.all isDigitCh then
        some ⟨(digitsToNat ip : Int), 0⟩
      else none
  | '.' :: fp =>
      if !ip.isEmpty && !fp.isEmpty && ip.all isDigitCh && fp.all isDigitCh then
        some ⟨(digitsToNat (ip ++ fp) : Int), fp.length⟩
      else none
  | _ :: _ => none

/-- Parse an unsigned plain decimal literal (digits, optionally a point and
more digits).  This is the subset of `decimal.NewFromString` exercised by the
RQL wire format. -/
def parseUDec (cs : List Char) : Option Dec :=
  parseUDecAux (cs.takeWhile (fun c => !(c == '.')))
    (cs.drop (cs.takeWhile (fun c => !(c == '.'))).length)

/-- `decimal.NewFromString` on plain decimal literals. -/
def parseDec (s : String) : Option Dec :=
  match s.data with
  | '-' :: cs => (parseUDec cs).map (fun d => ⟨-d.man, d.scale⟩)
  | cs => parseUDec cs

/-! ### Digit lemmas -/

theorem natDigitsAux_congr :
    ∀ f1 n f2, n ≤ f1 → n ≤ f2 → natDigitsAux f1 n = natDigitsAux f2 n := by
  intro f1
  induction f1 with
  | zero =>
    intro n f2 h1 _
    have hn : n = 0 := Nat.le_zero.mp h1
    subst hn
    cases f2 <;> simp [natDigitsAux]
  | succ f ih =>
    intro n f2 h1 h2
    by_cases hn : n = 0
    · subst hn; cases f2 <;> simp [natDigitsAux]
    · have hpos : 1 ≤ n := Nat.one_le_iff_ne_zero.mpr hn
      obtain ⟨f2', rfl⟩ : ∃ f2', f2 = f2' + 1 := by
        cases f2 with
        | zero => omega
        | succ k => exact ⟨k, rfl⟩
      simp only [natDigitsAux, if_neg hn]
      have hd : n / 10 ≤ f := by omega
      have hd2 : n / 10 ≤ f2' := by omega
      rw [ih (n / 10) f2' hd hd2]

theorem natDigits_succ (n : Nat) (hn : n ≠ 0) :
    natDigits n = n % 10 :: natDigits (n / 10) := by
  obtain ⟨m, rfl⟩ : ∃ m, n = m + 1 := by
    cases n with
    | zero => exact absurd rfl hn
    | succ k => exact ⟨k, rfl⟩
  show natDigitsAux (m + 1) (m + 1) = _
  simp only [natDigitsAux, if_neg hn]
  rw [natDigitsAux_congr m ((m + 1) / 10) ((m + 1) / 10) (by omega) (le_refl _)]
  rfl

theorem lowNat_cons (d : Nat) (ds : List Nat) :
    lowNat (d :: ds) = d + 10 * lowNat ds := rfl

theorem lowNat_natDigits : ∀ n, lowNat (natDigits n) = n := by
  intro n
  induction n using Nat.strong_induction_on with
  | _ n ih =>
    by_cases hn : n = 0
    · subst hn; rfl
    · rw [natDigits_succ n hn, lowNat_cons, ih (n / 10) (Nat.div_lt_self (by omega) (by omega))]
      omega

theorem natDigits_lt_ten : ∀ n d, d ∈ natDigits n → d < 10 := by
  intro n
  induction n using Nat.strong_induction_on with
  | _ n ih =>
    intro d hd
    by_cases hn : n = 0
    · subst hn; simp [natDigits, natDigitsAux] at hd
    · rw [natDigits_succ n hn] at hd
      rcases List.mem_cons.mp hd with h | h
      · subst h; exact Nat.mod_lt _ (by omega)
      · exact ih (n / 10) (Nat.div_lt_self (by omega) (by omega)) d h

theorem digitVal_digitChar (d : Nat) (h : d < 10) : digitVal (Nat.digitChar d) = d := by
  interval_cases d <;> rfl

theorem isDigitCh_digitChar (d : Nat) (h : d < 10) : isDigitCh (Nat.digitChar d) = true := by
  interval_cases d <;> rfl

theorem digitsToNat_append (a b : List Char) :
    digitsToNat (a ++ b) = b.foldl (fun acc c => 10 * acc + digitVal c) (digitsToNat a) := by
  simp [digitsToNat, List.foldl_append]

theorem digitsToNat_snoc (a : List Char) (c : Char) :
    digitsToNat (a ++ [c]) = 10 * digitsToNat a + digitVal c := by
  rw [digitsToNat_append]; rfl

theorem digitsToNat_zeros_append :
    ∀ k cs, digitsToNat (List.replicate k '0' ++ cs) = digitsToNat cs := by
  intro k
  induction k with
  | zero => intro cs; rfl
  | succ k ih =>
    intro cs
    show digitsToNat ('0' :: (List.replicate k '0' ++ cs)) = digitsToNat cs
    have : digitsToNat ('0' :: (List.replicate k '0' ++ cs)) =
        (List.replicate k '0' ++ cs).foldl (fun acc c => 10 * acc + digitVal c) 0 := rfl
    rw [this]
    exact ih cs

theorem digitsToNat_rev_digitChars (ds : List Nat) (h : ∀ d ∈ ds, d < 10) :
    digitsToNat ((ds.map Nat.digitChar).reverse) = lowNat ds := by
  induction ds with
  | nil => rfl
  | cons d rest ih =>
    simp only [List.map_cons, List.reverse_cons]
    rw [digitsToNat_snoc, ih (fun x hx => h x (List.mem_cons_of_mem _ hx)),
      digitVal_digitChar d (h d (List.mem_cons_self _ _)), lowNat_cons]
    omega

theorem digitsToNat_natDigitChars (n : Nat) : digitsToNat (natDigitChars n) = n := by
  by_cases hn : n = 0
  · subst hn; rfl
  · unfold natDigitChars
    rw [if_neg hn, digitsToNat_rev_digitChars _ (natDigits_lt_ten n), lowNat_natDigits]

theorem natDigitChars_all_digit (n : Nat) : ∀ c ∈ natDigitChars n, isDigitCh c = true := by
  unfold natDigitChars
  by_cases hn : n = 0
  · subst hn; intro c hc; simp at hc; subst hc; rfl
  · rw [if_neg hn]
    intro c hc
    rw [List.mem_reverse] at hc
    obtain ⟨d, hd, rfl⟩ := List.mem_map.mp hc
    exact isDigitCh_digitChar d (natDigits_lt_ten n d hd)

theorem natDigitChars_ne_nil (n : Nat) : natDigitChars n ≠ [] := by
  unfold natDigitChars
  by_cases hn : n = 0
  · subst hn; simp
  · rw [if_neg hn, natDigits_succ n hn]
    simp

/-! ### Decimal string round-trip -/

theorem takeWhile_all {p : Char → Bool} :
    ∀ xs : List Char, (∀ x ∈ xs, p x = true) → xs.takeWhile p = xs := by
  intro xs
  induction xs with
  | nil => intro _; rfl
  | cons x rest ih =>
    intro h
    simp only [List.takeWhile]
    rw [h x (List.mem_cons_self _ _)]
    simp [ih (fun y hy => h y (List.mem_cons_of_mem _ hy))]

theorem takeWhile_append_stop {p : Char → Bool} :
    ∀ xs c ys, (∀ x ∈ xs, p x = true) → p c = false →
      (xs ++ c :: ys).takeWhile p = xs := by
  intro xs c ys hall hc
  induction xs with
  | nil => simp [List.takeWhile, hc]
  | cons x rest ih =>
    simp only [List.cons_append, List.takeWhile]
    rw [hall x (List.mem_cons_self _ _)]
    simp [ih (fun y hy => hall y (List.mem_cons_of_mem _ hy))]

theorem drop_append_length (xs : List Char) (ys : List Char) :
    (xs ++ ys).drop xs.length = ys := by
  induction xs with
  | nil => rfl
  | cons x rest ih => simp [ih]

theorem isDigitCh_not_dot {c : Char} (h : isDigitCh c = true) : (!(c == '.')) = true := by
  by_cases hc : c = '.'
  · subst hc; exact absurd h (by decide)
  · simp [hc]

theorem isDigitCh_ne_dash {c : Char} (h : isDigitCh c = true) : c ≠ '-' := by
  intro hc
  subst hc
  exact absurd h (by decide)

theorem ne_nil_isEmpty_false {α : Type} {xs : List α} (h : xs ≠ []) : xs.isEmpty = false := by
  cases xs with
  | nil => exact absurd rfl h
  | cons _ _ => rfl

theorem parseUDecAux_nil (ip : List Char) :
    parseUDecAux ip [] =
      if !ip.isEmpty && ip.all isDigitCh then some ⟨(digitsToNat ip : Int), 0⟩
      else none := rfl

theorem parseUDecAux_dot (ip fp : List Char) :
    parseUDecAux ip ('.' :: fp) =
      if !ip.isEmpty && !fp.isEmpty && ip.all isDigitCh && fp.all isDigitCh then
        some ⟨(digitsToNat (ip ++ fp) : Int), fp.length⟩
      else none := rfl

theorem decDigits_length (d : Dec) : d.scale + 1 ≤ (decDigits d).length := by
  unfold decDigits
  rw [List.length_append, List.length_replicate]
  omega

theorem decDigits_all (d : Dec) : ∀ c ∈ decDigits d, isDigitCh c = true := by
  unfold decDigits
  intro c hc
  rcases List.mem_append.mp hc with h | h
  · rw [List.eq_of_mem_replicate h]; rfl
  · exact natDigitChars_all_digit _ c h

theorem digitsToNat_decDigits (d : Dec) : digitsToNat (decDigits d) = d.man.natAbs := by
  unfold decDigits
  rw [digitsToNat_zeros_append, digitsToNat_natDigitChars]

theorem dec_take_drop (d : Dec) : decIntChars d ++ decFracChars d = decDigits d :=
  List.take_append_drop _ _

theorem decIntChars_all (d : Dec) : ∀ c ∈ decIntChars d, isDigitCh c = true :=
  fun c hc => decDigits_all d c (List.mem_of_mem_take hc)

theorem decFracChars_all (d : Dec) : ∀ c ∈ decFracChars d, isDigitCh c = true :=
  fun c hc => decDigits_all d c (List.mem_of_mem_drop hc)

theorem decFracChars_length (d : Dec) : (decFracChars d).length = d.scale := by
  unfold decFracChars
  rw [List.length_drop]
  have := decDigits_length d
  omega

theorem decIntChars_ne_nil (d : Dec) : decIntChars d ≠ [] := by
  unfold decIntChars
  have := decDigits_length d
  intro h
  have hl := congrArg List.length h
  rw [List.length_take] at hl
  simp at hl
  omega

theorem parseUDec_dec (d : Dec) :
    parseUDec (decIntChars d ++ (if d.scale = 0 then [] else '.' :: decFracChars d)) =
      some ⟨(d.man.natAbs : Int), d.scale⟩ := by
  by_cases hs : d.scale = 0
  · rw [if_pos hs]
    have hid : decIntChars d = decDigits d := by
      unfold decIntChars
      rw [hs, Nat.sub_zero, List.take_length]
    rw [List.append_nil, hid]
    unfold parseUDec
    rw [takeWhile_all (decDigits d) (fun c hc => isDigitCh_not_dot (decDigits_all d c hc)),
      List.drop_length]
    have hne : decDigits d ≠ [] := by
      intro h
      have := decDigits_length d
      rw [h] at this
      simp at this
    rw [parseUDecAux_nil, ne_nil_isEmpty_false hne]
    have hall : (decDigits d).all isDigitCh = true :=
      List.all_eq_true.mpr (fun c hc => decDigits_all d c hc)
    rw [hall]
    simp [digitsToNat_decDigits, hs]
  · rw [if_neg hs]
    unfold parseUDec
    have htw : (decIntChars d ++ '.' :: decFracChars d).takeWhile (fun c => !(c == '.')) =
        decIntChars d :=
      takeWhile_append_stop _ _ _
        (fun c hc => isDigitCh_not_dot (decIntChars_all d c hc)) (by decide)
    rw [htw, drop_append_length]
    have hfne : decFracChars d ≠ [] := by
      intro h
      have := decFracChars_length d
      rw [h] at this
      simp at this
      omega
    rw [parseUDecAux_dot, ne_nil_isEmpty_false (decIntChars_ne_nil d), ne_nil_isEmpty_false hfne]
    have hial : (decIntChars d).all isDigitCh = true :=
      List.all_eq_true.mpr (fun c hc => decIntChars_all d c hc)
    have hfal : (decFracChars d).all isDigitCh = true :=
      List.all_eq_true.mpr (fun c hc => decFracChars_all d c hc)
    rw [hial, hfal]
    simp [dec_take_drop, digitsToNat_decDigits, decFracChars_length]

theorem parseDec_decToString (d : Dec) : parseDec (decToString d) = some d := by
  have hdata : (decToString d).data = decToChars d := rfl
  by_cases hneg : d.man < 0
  · have hchars : decToChars d =
        '-' :: (decIntChars d ++ (if d.scale = 0 then [] else '.' :: decFracChars d)) := by
      unfold decToChars
      rw [if_pos hneg]
      rfl
    unfold parseDec
    rw [hdata, hchars]
    simp only [parseUDec_dec d, Option.map_some']
    have : -((d.man.natAbs : Int)) = d.man := by omega
    rw [this]
  · have hchars : decToChars d =
        decIntChars d ++ (if d.scale = 0 then [] else '.' :: decFracChars d) := by
      unfold decToChars
      rw [if_neg hneg]
      rfl
    obtain ⟨c, ip', hip⟩ : ∃ c ip', decIntChars d = c :: ip' := by
      cases h : decIntChars d with
      | nil => exact absurd h (decIntChars_ne_nil d)
      | cons c ip' => exact ⟨c, ip', rfl⟩
    have hcdanger : c ≠ '-' :=
      isDigitCh_ne_dash (decIntChars_all d c (by rw [hip]; exact List.mem_cons_self _ _))
    unfold parseDec
    rw [hdata, hchars, hip]
    simp only [List.cons_append]
    split
    · rename_i cs heq
      injection heq with h1 _
      exact absurd h1 hcdanger
    · rename_i hne
      rw [← List.cons_append, ← hip, parseUDec_dec d]
      have : ((d.man.natAbs : Int)) = d.man := by omega
      rw [this]

/-! ### Decimal comparisons denote exact rational comparisons -/

theorem pow_ten_pos (s : Nat) : (0 : ℚ) < (10 : ℚ) ^ s := by positivity

theorem decLT_iff (a b : Dec) : decLT a b = true ↔ a.toRat < b.toRat := by
  unfold decLT
  rw [decide_eq_true_iff, Dec.toRat, Dec.toRat,
    div_lt_div_iff₀ (pow_ten_pos a.scale) (pow_ten_pos b.scale)]
  constructor
  · intro h; exact_mod_cast h
  · intro h; exact_mod_cast h

theorem decLE_iff (a b : Dec) : decLE a b = true ↔ a.toRat ≤ b.toRat := by
  unfold decLE
  rw [decide_eq_true_iff, Dec.toRat, Dec.toRat,
    div_le_div_iff₀ (pow_ten_pos a.scale) (pow_ten_pos b.scale)]
  constructor
  · intro h; exact_mod_cast h
  · intro h; exact_mod_cast h

theorem decEQ_iff (a b : Dec) : decEQ a b = true ↔ a.toRat = b.toRat := by
  unfold decEQ
  rw [decide_eq_true_iff, Dec.toRat, Dec.toRat,
    div_eq_div_iff (ne_of_gt (pow_ten_pos a.scale)) (ne_of_gt (pow_ten_pos b.scale))]
  constructor
  · intro h; exact_mod_cast h
  · intro h; exact_mod_cast h

/-!
## The RQL structured wire form

RQL nodes marshal to and unmarshal from the structured form Go produces by
JSON-decoding into `interface{}`: null, booleans, numbers, strings, arrays
and objects.  Go decodes JSON numbers into `float64` and the numeric
predicate immediately converts them with `decimal.NewFromFloat`; a number in
the wire form is therefore modelled by the decimal it denotes.
-/

inductive Value where
  | null
  | bool (b : Bool)
  | num (d : Dec)
  | str (s : String)
  | arr (xs : List Value)
  | obj (kvs : List (String × Value))

/-- The two error classes of RQL unmarshalling (`errz`): match errors let a
parent expression try an alternative shape, syntax errors are fatal. -/
inductive UErr where
  | matchErr (msg : String)
  | syntaxErr (msg : String)
deriving DecidableEq

/-!
## The numeric predicate (`predicate/numeric.go`)
-/

inductive ComparisonOp where
  | lt | lte | gt | gte | eql | neql
deriving DecidableEq

/-- The wire string of each comparison operator (the keys of
`comparisonOpMap`). -/
def ComparisonOp.wire : ComparisonOp → String
  | .lt => "<"
  | .lte => "<="
  | .gt => ">"
  | .gte => ">="
  | .eql => "="
  | .neql => "!="

/-- Membership test in `comparisonOpMap`, as a partial inverse of `wire`. -/
def comparisonOpOfString (s : String) : Option ComparisonOp :=
  if s = "<" then some .lt
  else if s = "<=" then some .lte
  else if s = ">" then some .gt
  else if s = ">=" then some .gte
  else if s = "=" then some .eql
  else if s = "!=" then some .neql
  else none

theorem comparisonOpOfString_wire (op : ComparisonOp) :
    comparisonOpOfString op.wire = some op := by
  cases op <;> rfl

/-- The `numeric` struct: comparison operator, decimal operand, and the
`unsigned` refinement flag (set by the `UnsignedNumeric` constructor). -/
structure NumericPred where
  op : ComparisonOp
  n : Dec
  unsigned : Bool
deriving DecidableEq

/-- `numeric.Marshal`: `[<op string>, <decimal printed as a string>]`. -/
def numericMarshal (p : NumericPred) : Value :=
  .arr [.str p.op.wire, .str (decToString p.n)]

/-- `numeric.Unmarshal`.  The receiver's `unsigned` flag is a parameter (Go
mutates the receiver in place).  Mirrors the source order: the matcher checks
the input is an array whose first element is a known comparison-operator
string (otherwise a match error); then the length checks; then the operand is
read from a JSON number (`decimal.NewFromFloat`) or string
(`decimal.NewFromString`); finally the unsigned refinement rejects negative
operands with a syntax error. -/
def numericUnmarshal (unsigned : Bool) (input : Value) : Except UErr NumericPred :=
  match input with
  | .arr (.str opStr :: rest) =>
    match comparisonOpOfString opStr with
    | none => .error (.matchErr "must be formatted as [<comparison_op>, <number>]")
    | some op =>
      match rest with
      | [] => .error (.syntaxErr "must be formatted as [<comparison_op>, <number>] (missing the number)")
      | [second] =>
        match (match second with
               | .num f => Except.ok f
               | .str t =>
                 match parseDec t with
                 | some n => Except.ok n
                 | none => Except.error (UErr.syntaxErr ("failed to parse " ++ t ++ " as a number"))
               | _ => Except.error (UErr.syntaxErr "is not a valid number")) with
        | .error e => .error e
        | .ok n =>
          if unsigned && decLT n decZero then
            .error (.syntaxErr (decToString n ++ " must be an unsigned (non-negative) number"))
          else .ok ⟨op, n, unsigned⟩
      | _ :: _ :: _ => .error (.syntaxErr "must be formatted as [<comparison_op>, <number>]")
  | _ => .error (.matchErr "must be formatted as [<comparison_op>, <number>]")

/-- `numeric.EvalNumeric`: compares the evaluated decimal against the operand
with the stored operator. -/
def evalNumeric (p : NumericPred) (n : Dec) : Bool :=
  match p.op with
  | .lt => decLT n p.n
  | .lte => decLE n p.n
  | .gt => decLT p.n n
  | .gte => decLE p.n n
  | .eql => decEQ n p.n
  | .neql => !(decEQ n p.n)

/-- Modelled from the spec: the exact comparison each operator denotes on the
rationals the decimals stand for (the spec's "exact decimal comparison"). -/
def exactDecimalCompare : ComparisonOp → ℚ → ℚ → Prop
  | .lt => fun a b => a < b
  | .lte => fun a b => a ≤ b
  | .gt => fun a b => a > b
  | .gte => fun a b => a ≥ b
  | .eql => fun a b => a = b
  | .neql => fun a b => a ≠ b

/-!
## The null value predicate

Only the test suite of the null predicate is in the sources
(`predicate/null_test.go`).  Modelled from the spec: the null value
predicate marshals as the literal `null`, unmarshals only from `null`
(anything else is a match error), and `EvalValue` is true exactly on the
null value.
-/

def nullMarshal : Value := .null

def nullUnmarshal (input : Value) : Except UErr Unit :=
  match input with
  | .null => .ok ()
  | _ => .error (.matchErr "must be formatted as null")

def nullEvalValue (v : Value) : Bool :=
  match v with
  | .null => true
  | _ => false

/-!
## The name primary

Only the test suite of the `name` primary is in the sources
(`primary/name_test.go`).  Modelled from the spec: `name` marshals as
`["name", <string predicate>]` (here with a glob string predicate, the shape
the tests exercise), restores the glob on unmarshal, and its entry-schema
evaluation always returns true (an entry's name is not constrained by the
schema, so the schema gives no information).
-/

structure NamePred where
  glob : String
deriving DecidableEq

def nameMarshal (p : NamePred) : Value :=
  .arr [.str "name", .arr [.str "glob", .str p.glob]]

def nameUnmarshal (input : Value) : Except UErr NamePred :=
  match input with
  | .arr [.str "name", .arr [.str "glob", .str g]] => .ok ⟨g⟩
  | _ => .error (.matchErr "must be formatted as [\"name\", NPE StringPredicate]")

structure RqlEntrySchema where
  path : String := ""
  label : String := ""
deriving DecidableEq

def nameEvalEntrySchema (_s : RqlEntrySchema) : Bool := true

/-!
## Claims C1, C4, C5: the RQL wire form of numeric / null / name nodes
-/

/-- **C1** — For every RQL AST node embedded here, re-parsing the structured
form produced by marshalling the node yields an equal node: the numeric
predicate marshals to `[op, decimal-as-string]` and unmarshalling restores
the same operator and decimal (for an unsigned predicate this presupposes
the node's own invariant, a non-negative operand, since unmarshal rejects
negatives); the null value predicate marshals to the literal `null` and
unmarshals from it; the name primary round-trips likewise. -/
theorem claim_C1_marshal_roundtrip :
    (∀ (op : ComparisonOp) (d : Dec) (u : Bool), (u = true → decLT d decZero = false) →
      numericUnmarshal u (numericMarshal ⟨op, d, u⟩) = .ok ⟨op, d, u⟩)
    ∧ nullUnmarshal nullMarshal = .ok ()
    ∧ (∀ p : NamePred, nameUnmarshal (nameMarshal p) = .ok p) := by
  refine ⟨?_, rfl, fun p => rfl⟩
  intro op d u h
  show numericUnmarshal u (.arr [.str op.wire, .str (decToString d)]) = .ok ⟨op, d, u⟩
  simp only [numericUnmarshal, comparisonOpOfString_wire, parseDec_decToString]
  cases u with
  | false => simp
  | true => simp [h rfl]

/-- Witness for C1: the numeric round-trip at the concrete unsigned
predicate `<= 42`. -/
theorem claim_C1_marshal_roundtrip_witness :
    numericUnmarshal true (numericMarshal ⟨.lte, ⟨42, 0⟩, true⟩) = .ok ⟨.lte, ⟨42, 0⟩, true⟩ :=
  claim_C1_marshal_roundtrip.1 .lte ⟨42, 0⟩ true (fun _ => by decide)

/-- **C4** — Unmarshalling `["<", "-1"]` into an unsigned numeric predicate
fails with a syntax (non-match) error whose message contains "unsigned";
`["<", "5"]` succeeds and the resulting predicate evaluates to true on 3 and
false on 7. -/
theorem claim_C4_unsigned_numeric :
    numericUnmarshal true (.arr [.str "<", .str "-1"]) =
      .error (.syntaxErr "-1 must be an unsigned (non-negative) number")
    ∧ (∃ pre post, "-1 must be an unsigned (non-negative) number" = pre ++ "unsigned" ++ post)
    ∧ numericUnmarshal true (.arr [.str "<", .str "5"]) = .ok ⟨.lt, ⟨5, 0⟩, true⟩
    ∧ evalNumeric ⟨.lt, ⟨5, 0⟩, true⟩ ⟨3, 0⟩ = true
    ∧ evalNumeric ⟨.lt, ⟨5, 0⟩, true⟩ ⟨7, 0⟩ = false :=
  ⟨by rfl, ⟨"-1 must be an ", " (non-negative) number", by rfl⟩,
    by rfl, by decide, by decide⟩

/-- **C5** — Numeric predicates use exact decimal semantics: the operand
marshals as a decimal string, unmarshalling accepts both a decimal string
and a JSON number, and all six comparators agree with exact rational
comparison of the decimals for every evaluated number. -/
theorem claim_C5_decimal_semantics :
    (∀ p : NumericPred, numericMarshal p = .arr [.str p.op.wire, .str (decToString p.n)])
    ∧ (∀ (u : Bool) (op : ComparisonOp) (d : Dec), (u = true → decLT d decZero = false) →
        numericUnmarshal u (.arr [.str op.wire, .num d]) = .ok ⟨op, d, u⟩ ∧
        numericUnmarshal u (.arr [.str op.wire, .str (decToString d)]) = .ok ⟨op, d, u⟩)
    ∧ (∀ (p : NumericPred) (n : Dec),
        evalNumeric p n = true ↔ exactDecimalCompare p.op n.toRat p.n.toRat) := by
  refine ⟨fun p => rfl, ?_, ?_⟩
  · intro u op d h
    constructor
    · show numericUnmarshal u (.arr [.str op.wire, .num d]) = .ok ⟨op, d, u⟩
      simp only [numericUnmarshal, comparisonOpOfString_wire]
      cases u with
      | false => simp
      | true => simp [h rfl]
    · show numericUnmarshal u (.arr [.str op.wire, .str (decToString d)]) = .ok ⟨op, d, u⟩
      simp only [numericUnmarshal, comparisonOpOfString_wire, parseDec_decToString]
      cases u with
      | false => simp
      | true => simp [h rfl]
  · intro p n
    obtain ⟨op, d, u⟩ := p
    cases op with
    | lt => exact decLT_iff n d
    | lte => exact decLE_iff n d
    | gt => exact decLT_iff d n
    | gte => exact decLE_iff d n
    | eql => exact decEQ_iff n d
    | neql =>
      show (!(decEQ n d)) = true ↔ ¬(n.toRat = d.toRat)
      rw [Bool.not_eq_true', ← decEQ_iff n d]
      simp

/-- Witness for C5: string and number unmarshal forms at the concrete
operator `<` and decimal `5`, and the comparator agreement at `3 < 5`. -/
theorem claim_C5_decimal_semantics_witness :
    (numericUnmarshal true (.arr [.str "<", .num ⟨5, 0⟩]) = .ok ⟨.lt, ⟨5, 0⟩, true⟩ ∧
      numericUnmarshal true (.arr [.str "<", .str (decToString ⟨5, 0⟩)]) = .ok ⟨.lt, ⟨5, 0⟩, true⟩)
    ∧ (evalNumeric ⟨.lt, ⟨5, 0⟩, true⟩ ⟨3, 0⟩ = true ↔
        exactDecimalCompare .lt (Dec.toRat ⟨3, 0⟩) (Dec.toRat ⟨5, 0⟩)) :=
  ⟨claim_C5_decimal_semantics.2.1 true .lt ⟨5, 0⟩ (fun _ => by decide),
    claim_C5_decimal_semantics.2.2 ⟨.lt, ⟨5, 0⟩, true⟩ ⟨3, 0⟩⟩

/-!
## Claims C2, C9: the object value predicate and schema pruning

Only the test suites of the object and null value predicates are in the
sources (`predicate/object_test.go`, `predicate/null_test.go`).  The
definitions below are modelled from the spec and grounded in those tests:
object-key selectors match the first key whose case-folded form equals the
case-folded selector and stop there; evaluation of a non-object (or an
object with no matching key) is false.  Value schemas are modelled as the
JSON-Schema fragments the tests use: a type tag, an optional property list,
and an additionalProperties flag.
-/

/-- Case-folded string equality (`strings.EqualFold` on the ASCII subset the
tests exercise). -/
def strFoldEq (a b : String) : Bool :=
  a.data.map Char.toLower == b.data.map Char.toLower

/-- Modelled from the spec: evaluation of the object value predicate with key
selector `k` and element predicate `inner`. -/
def objectEval (k : String) (inner : Value → Bool) (v : Value) : Bool :=
  match v with
  | .obj kvs =>
    match kvs.find? (fun kv => strFoldEq kv.1 k) with
    | some kv => inner kv.2
    | none => false
  | _ => false

/-- A JSON value schema as the tests build them: `{"type": t,
"properties": {...}, "additionalProperties": b}`; `properties = none` means
the schema does not constrain the keys. -/
structure ValueSchema where
  type : String
  properties : Option (List String)
  additionalProperties : Bool
deriving DecidableEq

/-- The JSON type tag of a value. -/
def vtype : Value → String
  | .null => "null"
  | .bool _ => "boolean"
  | .num _ => "number"
  | .str _ => "string"
  | .arr _ => "array"
  | .obj _ => "object"

/-- Modelled from the spec and the in-src test vectors: schema-level
evaluation of the object predicate is false on non-object schemas and on
closed object schemas (`additionalProperties: false`) none of whose declared
keys case-folds to the selector; otherwise the schema gives no information
and the evaluation is true. -/
def objectEvalSchema (k : String) (s : ValueSchema) : Bool :=
  s.type == "object" &&
    (match s.properties with
     | none => true
     | some props => s.additionalProperties || props.any (fun p => strFoldEq p k))

/-- Modelled from the spec: schema-level evaluation of the null value
predicate. -/
def nullEvalSchema (s : ValueSchema) : Bool := s.type == "null"

/-- A value conforms to a schema when its JSON type matches the schema's type
tag and, for a closed object schema, all its keys are declared. -/
def conforms (v : Value) (s : ValueSchema) : Bool :=
  vtype v == s.type &&
    (match v, s.properties, s.additionalProperties with
     | .obj kvs, some props, false => kvs.all (fun kv => props.contains kv.1)
     | _, _, _ => true)

/-- **C2** — Pruning soundness: if schema-level evaluation of a predicate is
false on a value's schema then entry(value)-level evaluation is false on
every conforming value; and when the schema gives no information the
schema-level evaluation returns true (object predicate on an unconstrained
object schema; name primary on any entry schema). -/
theorem claim_C2_pruning_soundness :
    (∀ (k : String) (inner : Value → Bool) (s : ValueSchema) (v : Value),
      objectEvalSchema k s = false → conforms v s = true → objectEval k inner v = false)
    ∧ (∀ (s : ValueSchema) (v : Value),
        nullEvalSchema s = false → conforms v s = true → nullEvalValue v = false)
    ∧ (∀ (k : String) (b : Bool), objectEvalSchema k ⟨"object", none, b⟩ = true)
    ∧ (∀ es : RqlEntrySchema, nameEvalEntrySchema es = true) := by
  refine ⟨?_, ?_, fun k b => rfl, fun es => rfl⟩
  · intro k inner s v hs hc
    cases v with
    | obj kvs =>
      have htype : vtype (Value.obj kvs) == s.type := (Bool.and_eq_true _ _).mp hc |>.1
      have htype' : s.type = "object" := by
        have := eq_of_beq htype
        exact this.symm
      rw [objectEvalSchema, htype'] at hs
      simp only [beq_self_eq_true, Bool.true_and] at hs
      cases hp : s.properties with
      | none => rw [hp] at hs; simp at hs
      | some props =>
        rw [hp] at hs
        have hadd : s.additionalProperties = false := by
          cases h : s.additionalProperties with
          | false => rfl
          | true => rw [h] at hs; simp at hs
        rw [hadd] at hs
        simp only [Bool.false_or] at hs
        have hnone : ∀ p ∈ props, strFoldEq p k = false := by
          intro p hpmem
          by_contra hne
          have : props.any (fun p => strFoldEq p k) = true :=
            List.any_eq_true.mpr ⟨p, hpmem, Bool.of_not_eq_false hne⟩
          rw [this] at hs
          exact absurd hs (by simp)
        have hkeys : kvs.all (fun kv => props.contains kv.1) = true := by
          have := (Bool.and_eq_true _ _).mp hc |>.2
          rw [hp, hadd] at this
          exact this
        rw [objectEval]
        have hfind : kvs.find? (fun kv => strFoldEq kv.1 k) = none := by
          rw [List.find?_eq_none]
          intro kv hkv
          have hmem : props.contains kv.1 = true :=
            List.all_eq_true.mp hkeys kv hkv
          have : kv.1 ∈ props := List.elem_iff.mp hmem
          exact fun hfe => absurd (hnone kv.1 this) (by rw [hfe]; simp)
        rw [hfind]
    | null => rfl
    | bool b => rfl
    | num d => rfl
    | str t => rfl
    | arr xs => rfl
  · intro s v hs hc
    have htype : vtype v == s.type := (Bool.and_eq_true _ _).mp hc |>.1
    cases v with
    | null =>
      rw [nullEvalSchema, ← eq_of_beq htype] at hs
      exact absurd hs (by decide)
    | bool b => rfl
    | num d => rfl
    | str t => rfl
    | arr xs => rfl
    | obj kvs => rfl

/-- Witness for C2: the in-src test vectors — the object predicate with
selector `fOo` prunes a `number` schema and a closed object schema declaring
only `bar`, while the corresponding values evaluate to false; the null
predicate prunes an `object` schema. -/
theorem claim_C2_pruning_soundness_witness :
    (objectEval "fOo" (fun _ => true) (.num ⟨1, 0⟩) = false
      ∧ objectEval "fOo" (fun _ => true) (.obj [("bar", .bool true)]) = false)
    ∧ nullEvalValue (.obj [("bar", .bool true)]) = false :=
  ⟨⟨claim_C2_pruning_soundness.1 "fOo" (fun _ => true) ⟨"number", none, true⟩ (.num ⟨1, 0⟩)
      (by decide) (by decide),
    claim_C2_pruning_soundness.1 "fOo" (fun _ => true) ⟨"object", some ["bar"], false⟩
      (.obj [("bar", .bool true)]) (by decide) (by decide)⟩,
    claim_C2_pruning_soundness.2.1 ⟨"object", none, true⟩ (.obj [("bar", .bool true)])
      (by decide) (by decide)⟩

/-- **C9** — The object value predicate with key selector `k` selects the
first key of the object whose case-folded form equals the case-folded `k`,
applies the inner predicate to that key's value and stops there (later
pairs, even matching ones, are ignored); it returns false when no key
matches or the value is not an object. -/
theorem claim_C9_object_first_key :
    (∀ (k : String) (inner : Value → Bool) (pre : List (String × Value)) (key : String)
        (val : Value) (post : List (String × Value)),
      (∀ kv ∈ pre, strFoldEq kv.1 k = false) → strFoldEq key k = true →
      objectEval k inner (.obj (pre ++ (key, val) :: post)) = inner val)
    ∧ (∀ (k : String) (inner : Value → Bool) (kvs : List (String × Value)),
        (∀ kv ∈ kvs, strFoldEq kv.1 k = false) → objectEval k inner (.obj kvs) = false)
    ∧ (∀ (k : String) (inner : Value → Bool) (v : Value),
        vtype v ≠ "object" → objectEval k inner v = false) := by
  refine ⟨?_, ?_, ?_⟩
  · intro k inner pre key val post hpre hkey
    rw [objectEval]
    have hfind : (pre ++ (key, val) :: post).find? (fun kv => strFoldEq kv.1 k) =
        some (key, val) := by
      induction pre with
      | nil => exact List.find?_cons_of_pos _ hkey
      | cons kv pre' ih =>
        rw [List.cons_append,
          List.find?_cons_of_neg _ (by simp [hpre kv (List.mem_cons_self _ _)])]
        exact ih (fun kv' h => hpre kv' (List.mem_cons_of_mem _ h))
    rw [hfind]
  · intro k inner kvs hall
    rw [objectEval]
    have hfind : kvs.find? (fun kv => strFoldEq kv.1 k) = none := by
      rw [List.find?_eq_none]
      intro kv hkv hfe
      exact absurd (hall kv hkv) (by rw [hfe]; simp)
    rw [hfind]
  · intro k inner v hv
    cases v with
    | obj kvs => exact absurd rfl hv
    | null => rfl
    | bool b => rfl
    | num d => rfl
    | str t => rfl
    | arr xs => rfl

/-- Witness for C9: with selector `fOo`, the first case-folded match `FOO`
is selected past a non-matching `bar` and ahead of a later matching `foo`;
an object without a matching key and a plain string evaluate to false. -/
theorem claim_C9_object_first_key_witness :
    objectEval "fOo" (fun v => nullEvalValue v)
      (.obj [("bar", .bool true), ("FOO", .null), ("foo", .bool false)]) =
        nullEvalValue .null
    ∧ objectEval "fOo" (fun _ => true) (.obj [("bar", .bool true)]) = false
    ∧ objectEval "fOo" (fun _ => true) (.str "foo") = false :=
  ⟨claim_C9_object_first_key.1 "fOo" (fun v => nullEvalValue v) [("bar", .bool true)] "FOO"
      .null [("foo", .bool false)] (by decide) (by decide),
    claim_C9_object_first_key.2.1 "fOo" (fun _ => true) [("bar", .bool true)] (by decide),
    claim_C9_object_first_key.2.2 "fOo" (fun _ => true) (.str "foo") (by decide)⟩

/-!
## Claims C3, C6, C7: the entry schema graph (`plugin/types.go`)

`EntrySchema.fill` walks the schema graph from a root entry, inserting each
node's record into an insertion-ordered map (a `linkedhashmap`, modelled as
an association list) keyed by type-id.  The model covers core-plugin entries
(`child.graph == nil` in the source; the external-plugin merge branch is
outside the claims).  `fillPanicf` panics are modelled as `Except.error`.
The recursion carries explicit fuel so the definition is structural; the Go
recursion terminates because every recursive call inserts a previously
absent type-id, which here becomes the theorem that the result is stable
once the fuel reaches the number of schema nodes, even for cyclic graphs.
-/

/-- A plugin entry as `fill` sees it: its schema label, whether the list
action is supported (`ListAction().IsSupportedOn`), and the result of
`ChildSchemas()` — `none` models a nil Go slice, an element `none` models a
nil child pointer, and a child is referenced by its type-id. -/
structure SchemaNode where
  label : String
  listable : Bool
  childSchemas : Option (List (Option String))
deriving DecidableEq

/-- The `entrySchema` record stored in the graph (the fields the claims
touch: label and accumulated child type-ids). -/
structure SchemaRec where
  label : String
  children : List String
deriving DecidableEq

abbrev SchemaGraph := List (String × SchemaRec)

def graphKeys (g : SchemaGraph) : List String := g.map Prod.fst

/-- `linkedhashmap.Put`: update in place when the key is present (iteration
order kept), append otherwise. -/
def lhmPut (g : SchemaGraph) (k : String) (v : SchemaRec) : SchemaGraph :=
  if (graphKeys g).contains k then
    g.map (fun e => if e.1 == k then (e.1, v) else e)
  else g ++ [(k, v)]

/-- `s.entrySchema.Children = append(s.Children, child.TypeID)`: the graph
holds a pointer to the record, so the append is visible in the graph. -/
def appendChild (g : SchemaGraph) (k c : String) : SchemaGraph :=
  g.map (fun e => if e.1 == k then (e.1, ⟨e.2.label, e.2.children ++ [c]⟩) else e)

/-- The universe of schema nodes of a plugin, keyed by type-id. -/
abbrev SchemaEnv := List (String × SchemaNode)

def lookupEnv (env : SchemaEnv) (tid : String) : Option SchemaNode :=
  (env.find? (fun e => e.1 == tid)).map Prod.snd

def fillPanicMsg (tid msg : String) : String := "s.fill (" ++ tid ++ "): " ++ msg

/-- `EntrySchema.fill`: put this node's record, then walk `ChildSchemas()`,
appending each child type-id to the record's children, recursing only into
children whose type-id is not yet in the graph.  A nil `ChildSchemas()`
result on a listable entry, and a nil child pointer, panic. -/
def fill (env : SchemaEnv) : Nat → SchemaGraph → String → Except String SchemaGraph
  | 0, _, _ => .error "out of fuel"
  | fuel + 1, graph, tid =>
    match lookupEnv env tid with
    | none => .ok graph
    | some node =>
      let graph1 := lhmPut graph tid ⟨node.label, []⟩
      if !node.listable then .ok graph1
      else
        match node.childSchemas with
        | none => .error (fillPanicMsg tid "ChildSchemas() returned nil")
        | some cs =>
          cs.foldlM (fun g c =>
            match c with
            | none => Except.error (fillPanicMsg tid "found a nil child schema")
            | some ctid =>
              let g1 := appendChild g tid ctid
              if (graphKeys g1).contains ctid then Except.ok g1
              else fill env fuel g1 ctid) graph1

/-- `EntrySchema.MarshalJSON` for a core plugin entry: fill a fresh ordered
map starting from the entry's own schema (the fuel suffices by the
stabilization theorem). -/
def marshalSchemaGraph (env : SchemaEnv) (root : String) : Except String SchemaGraph :=
  fill env (env.length + 1) [] root

/-- Number of env nodes whose type-id is not yet a key of the graph — the
quantity the Go recursion strictly decreases. -/
def freshCount (env : SchemaEnv) (ks : List String) : Nat :=
  (env.filter (fun e => !(ks.contains e.1))).length

/-- Every child type-id referenced from a node resolves in the env (true of
any real plugin: children are live `EntrySchema` objects). -/
def envClosed (env : SchemaEnv) : Bool :=
  env.all (fun e =>
    match e.2.childSchemas with
    | none => true
    | some cs => cs.all (fun c =>
        match c with
        | none => true
        | some ctid => (lookupEnv env ctid).isSome))

/-- An entry as `NewEntrySchema` sees it: the reflected package path and
type name (they form the type-id) and its supported actions. -/
structure EntryRep where
  pkgPath : String
  typeName : String
  actions : List String
deriving DecidableEq

structure EntrySchemaObj where
  typeID : String
  label : String
  actions : List String
deriving DecidableEq

/-- `plugin.NewEntrySchema`: panics (modelled as `Except.error`) on an empty
label, otherwise builds the schema with the reflected type-id. -/
def newEntrySchema (e : EntryRep) (label : String) : Except String EntrySchemaObj :=
  if label.length = 0 then .error "plugin.NewEntrySchema called with an empty label"
  else .ok ⟨e.pkgPath ++ "/" ++ e.typeName, label, e.actions⟩

/-! ### Graph-key bookkeeping -/

theorem contains_true_iff (ks : List String) (a : String) :
    ks.contains a = true ↔ a ∈ ks := by
  simp [List.contains]

theorem graphKeys_map_fst (g : SchemaGraph) (f : String × SchemaRec → String × SchemaRec)
    (hf : ∀ e, (f e).1 = e.1) : graphKeys (g.map f) = graphKeys g := by
  induction g with
  | nil => rfl
  | cons e g' ih =>
    show (f e).1 :: graphKeys (g'.map f) = e.1 :: graphKeys g'
    rw [hf e, ih]

theorem graphKeys_lhmPut_mem (g : SchemaGraph) (k : String) (v : SchemaRec)
    (h : (graphKeys g).contains k = true) : graphKeys (lhmPut g k v) = graphKeys g := by
  unfold lhmPut
  rw [if_pos h]
  apply graphKeys_map_fst
  intro e
  by_cases he : (e.1 == k) = true
  · rw [if_pos he]
  · rw [if_neg he]

theorem graphKeys_lhmPut_new (g : SchemaGraph) (k : String) (v : SchemaRec)
    (h : (graphKeys g).contains k = false) :
    graphKeys (lhmPut g k v) = graphKeys g ++ [k] := by
  unfold lhmPut
  rw [h]
  show graphKeys (g ++ [(k, v)]) = graphKeys g ++ [k]
  simp [graphKeys]

theorem graphKeys_appendChild (g : SchemaGraph) (k c : String) :
    graphKeys (appendChild g k c) = graphKeys g := by
  unfold appendChild
  apply graphKeys_map_fst
  intro e
  by_cases he : (e.1 == k) = true
  · rw [if_pos he]
  · rw [if_neg he]

/-- `g2` extends `g1`: the keys of `g2` are the keys of `g1` followed by the
newly inserted ones (insertion order is append order). -/
def keysExt (g1 g2 : SchemaGraph) : Prop :=
  ∃ ext, graphKeys g2 = graphKeys g1 ++ ext

theorem keysExt_refl (g : SchemaGraph) : keysExt g g := ⟨[], by simp⟩

theorem keysExt_trans {g1 g2 g3 : SchemaGraph} (h12 : keysExt g1 g2) (h23 : keysExt g2 g3) :
    keysExt g1 g3 := by
  obtain ⟨e1, h1⟩ := h12
  obtain ⟨e2, h2⟩ := h23
  exact ⟨e1 ++ e2, by rw [h2, h1, List.append_assoc]⟩

theorem keysExt_of_eq {g1 g2 : SchemaGraph} (h : graphKeys g2 = graphKeys g1) :
    keysExt g1 g2 := ⟨[], by simp [h]⟩

theorem lhmPut_keysExt (g : SchemaGraph) (k : String) (v : SchemaRec) :
    keysExt g (lhmPut g k v) := by
  cases h : (graphKeys g).contains k with
  | true => exact keysExt_of_eq (graphKeys_lhmPut_mem g k v h)
  | false => exact ⟨[k], graphKeys_lhmPut_new g k v h⟩

theorem keysExt_subset {g1 g2 : SchemaGraph} (h : keysExt g1 g2) :
    ∀ a ∈ graphKeys g1, a ∈ graphKeys g2 := by
  obtain ⟨ext, he⟩ := h
  intro a ha
  rw [he]
  exact List.mem_append_left _ ha

theorem exceptBind_ok {α : Type} (x : Except String α) (k : α → Except String α) (r : α) :
    (x >>= k) = .ok r ↔ ∃ a, x = .ok a ∧ k a = .ok r := by
  cases x with
  | error e =>
    constructor
    · intro h; exact absurd h (by simp [Bind.bind, Except.bind])
    · intro ⟨a, ha, _⟩; exact absurd ha (by simp)
  | ok a =>
    constructor
    · intro h; exact ⟨a, rfl, h⟩
    · intro ⟨a', ha, hk⟩
      cases ha
      exact hk

/-- Invariant preservation through the child loop (`List.foldlM` over the
`Except` monad). -/
theorem foldlM_inv (f : SchemaGraph → Option String → Except String SchemaGraph)
    (I : SchemaGraph → Prop) :
    ∀ (cs : List (Option String)) (g g' : SchemaGraph),
      (∀ g1 c g2, c ∈ cs → I g1 → f g1 c = .ok g2 → I g2) →
      I g → cs.foldlM f g = .ok g' → I g' := by
  intro cs
  induction cs with
  | nil =>
    intro g g' _ hI h
    rw [List.foldlM_nil] at h
    cases h
    exact hI
  | cons c cs' ih =>
    intro g g' hstep hI h
    rw [List.foldlM_cons] at h
    obtain ⟨g1, hg1, hrest⟩ := (exceptBind_ok _ _ _).mp h
    exact ih g1 g' (fun ga ca gb hc => hstep ga ca gb (List.mem_cons_of_mem _ hc))
      (hstep g c g1 (List.mem_cons_self _ _) hI hg1) hrest

/-! ### fill preserves key extension and key uniqueness -/

theorem fill_keysExt (env : SchemaEnv) :
    ∀ fuel graph tid g', fill env fuel graph tid = .ok g' → keysExt graph g' := by
  intro fuel
  induction fuel with
  | zero => intro graph tid g' h; exact absurd h (by simp [fill])
  | succ fuel ih =>
    intro graph tid g' h
    simp only [fill] at h
    cases hlook : lookupEnv env tid with
    | none =>
      rw [hlook] at h
      cases h
      exact keysExt_refl _
    | some node =>
      rw [hlook] at h
      simp only at h
      have hput : keysExt graph (lhmPut graph tid ⟨node.label, []⟩) := lhmPut_keysExt _ _ _
      cases hl : node.listable with
      | false =>
        rw [hl] at h
        simp at h
        rw [← h]
        exact hput
      | true =>
        rw [hl] at h
        simp only [Bool.not_true, Bool.false_eq_true, if_false] at h
        cases hcs : node.childSchemas with
        | none => rw [hcs] at h; exact absurd h (by simp)
        | some cs =>
          rw [hcs] at h
          refine keysExt_trans hput ?_
          refine foldlM_inv _ (keysExt (lhmPut graph tid ⟨node.label, []⟩)) cs _ _
            ?_ (keysExt_refl _) h
          intro g1 c g2 _ hI hstep
          cases c with
          | none => exact absurd hstep (by simp)
          | some ctid =>
            simp only at hstep
            by_cases hcont : (graphKeys (appendChild g1 tid ctid)).contains ctid = true
            · rw [if_pos hcont] at hstep
              cases hstep
              exact keysExt_trans hI (keysExt_of_eq (graphKeys_appendChild g1 tid ctid))
            · rw [if_neg hcont] at hstep
              refine keysExt_trans hI (keysExt_trans
                (keysExt_of_eq (graphKeys_appendChild g1 tid ctid)) ?_)
              exact ih _ _ _ hstep

theorem lhmPut_nodup (g : SchemaGraph) (k : String) (v : SchemaRec)
    (h : (graphKeys g).Nodup) : (graphKeys (lhmPut g k v)).Nodup := by
  cases hc : (graphKeys g).contains k with
  | true => rw [graphKeys_lhmPut_mem g k v hc]; exact h
  | false =>
    rw [graphKeys_lhmPut_new g k v hc]
    have hk : k ∉ graphKeys g := by
      intro hmem
      rw [(contains_true_iff _ _).mpr hmem] at hc
      cases hc
    rw [List.nodup_append]
    refine ⟨h, List.nodup_singleton k, ?_⟩
    intro a ha hb
    rw [List.mem_singleton] at hb
    subst hb
    exact hk ha

theorem fill_nodup (env : SchemaEnv) :
    ∀ fuel graph tid g', fill env fuel graph tid = .ok g' →
      (graphKeys graph).Nodup → (graphKeys g').Nodup := by
  intro fuel
  induction fuel with
  | zero => intro graph tid g' h _; exact absurd h (by simp [fill])
  | succ fuel ih =>
    intro graph tid g' h hnd
    simp only [fill] at h
    cases hlook : lookupEnv env tid with
    | none =>
      rw [hlook] at h
      cases h
      exact hnd
    | some node =>
      rw [hlook] at h
      simp only at h
      have hput : (graphKeys (lhmPut graph tid ⟨node.label, []⟩)).Nodup :=
        lhmPut_nodup _ _ _ hnd
      cases hl : node.listable with
      | false =>
        rw [hl] at h
        simp at h
        rw [← h]
        exact hput
      | true =>
        rw [hl] at h
        simp only [Bool.not_true, Bool.false_eq_true, if_false] at h
        cases hcs : node.childSchemas with
        | none => rw [hcs] at h; exact absurd h (by simp)
        | some cs =>
          rw [hcs] at h
          refine foldlM_inv _ (fun g => (graphKeys g).Nodup) cs _ _ ?_ hput h
          intro g1 c g2 _ hI hstep
          cases c with
          | none => exact absurd hstep (by simp)
          | some ctid =>
            simp only at hstep
            by_cases hcont : (graphKeys (appendChild g1 tid ctid)).contains ctid = true
            · rw [if_pos hcont] at hstep
              cases hstep
              rw [graphKeys_appendChild]
              exact hI
            · rw [if_neg hcont] at hstep
              refine ih _ _ _ hstep ?_
              rw [graphKeys_appendChild]
              exact hI

/-! ### Freshness: the quantity the recursion strictly decreases -/

theorem length_filter_imp {α : Type} (l : List α) (p q : α → Bool)
    (h : ∀ a ∈ l, q a = true → p a = true) :
    (l.filter q).length ≤ (l.filter p).length := by
  induction l with
  | nil => simp
  | cons a l' ih =>
    have ih' := ih (fun x hx => h x (List.mem_cons_of_mem _ hx))
    rw [List.filter_cons, List.filter_cons]
    cases hq : q a with
    | true =>
      rw [h a (List.mem_cons_self _ _) hq]
      simpa using ih'
    | false =>
      cases hp : p a with
      | true => simp; omega
      | false => simpa using ih'

theorem length_filter_lt {α : Type} (l : List α) (p q : α → Bool)
    (h : ∀ a ∈ l, q a = true → p a = true)
    (x : α) (hx : x ∈ l) (hp : p x = true) (hq : q x = false) :
    (l.filter q).length < (l.filter p).length := by
  induction l with
  | nil => simp at hx
  | cons a l' ih =>
    rw [List.filter_cons, List.filter_cons]
    rcases List.mem_cons.mp hx with rfl | hx'
    · rw [hp, hq]
      have := length_filter_imp l' p q (fun y hy => h y (List.mem_cons_of_mem _ hy))
      simp
      omega
    · have ihlt := ih (fun y hy => h y (List.mem_cons_of_mem _ hy)) hx'
      cases hqa : q a with
      | true =>
        rw [h a (List.mem_cons_self _ _) hqa]
        simpa using ihlt
      | false =>
        cases hpa : p a with
        | true => simp; omega
        | false => simpa using ihlt

theorem freshCount_le_of_subset (env : SchemaEnv) (ks ks' : List String)
    (h : ∀ a ∈ ks, a ∈ ks') : freshCount env ks' ≤ freshCount env ks := by
  apply length_filter_imp
  intro e _ hq
  cases hc : ks.contains e.1 with
  | false => rfl
  | true =>
    have : e.1 ∈ ks' := h e.1 ((contains_true_iff _ _).mp hc)
    rw [(contains_true_iff _ _).mpr this] at hq
    cases hq

theorem freshCount_append_lt (env : SchemaEnv) (ks : List String) (tid : String)
    (hmem : ∃ e ∈ env, e.1 = tid) (hks : ks.contains tid = false) :
    freshCount env (ks ++ [tid]) < freshCount env ks := by
  obtain ⟨e, he, hetid⟩ := hmem
  apply length_filter_lt _ _ _ _ e he
  · rw [hetid, hks]; rfl
  · rw [hetid]
    have : tid ∈ ks ++ [tid] := List.mem_append_right _ (List.mem_singleton_self _)
    rw [(contains_true_iff _ _).mpr this]
    rfl
  · intro a _ hq
    cases hc : ks.contains a.1 with
    | false => rfl
    | true =>
      have : a.1 ∈ ks ++ [tid] := List.mem_append_left _ ((contains_true_iff _ _).mp hc)
      rw [(contains_true_iff _ _).mpr this] at hq
      cases hq

theorem freshCount_pos (env : SchemaEnv) (ks : List String) (tid : String)
    (hmem : ∃ e ∈ env, e.1 = tid) (hks : ks.contains tid = false) :
    1 ≤ freshCount env ks := by
  obtain ⟨e, he, hetid⟩ := hmem
  have hp : (!(ks.contains e.1)) = true := by rw [hetid, hks]; rfl
  have : e ∈ env.filter (fun e => !(ks.contains e.1)) := List.mem_filter.mpr ⟨he, hp⟩
  have := List.length_pos.mpr (List.ne_nil_of_mem this)
  unfold freshCount
  omega

theorem freshCount_le_length (env : SchemaEnv) (ks : List String) :
    freshCount env ks ≤ env.length :=
  List.length_filter_le _ _

theorem lookupEnv_mem (env : SchemaEnv) (tid : String) (node : SchemaNode)
    (h : lookupEnv env tid = some node) : ∃ e ∈ env, e.1 = tid ∧ e.2 = node := by
  unfold lookupEnv at h
  cases hf : env.find? (fun e => e.1 == tid) with
  | none => rw [hf] at h; cases h
  | some e =>
    rw [hf] at h
    have hmem := List.mem_of_find?_eq_some hf
    have hpred := List.find?_some hf
    refine ⟨e, hmem, eq_of_beq hpred, ?_⟩
    cases h
    rfl

theorem envClosed_child (env : SchemaEnv) (hclosed : envClosed env = true)
    (e : String × SchemaNode) (he : e ∈ env) (cs : List (Option String))
    (hcs : e.2.childSchemas = some cs) (ctid : String) (hc : some ctid ∈ cs) :
    ∃ node, lookupEnv env ctid = some node := by
  have h1 := List.all_eq_true.mp hclosed e he
  rw [hcs] at h1
  simp only at h1
  have h2 := List.all_eq_true.mp h1 (some ctid) hc
  simp only at h2
  exact Option.isSome_iff_exists.mp h2

/-! ### Stabilization: enough fuel makes the result fuel-independent -/

theorem fill_succ (env : SchemaEnv) (fuel : Nat) (graph : SchemaGraph) (tid : String) :
    fill env (fuel + 1) graph tid =
      match lookupEnv env tid with
      | none => .ok graph
      | some node =>
        if !node.listable then .ok (lhmPut graph tid ⟨node.label, []⟩)
        else
          match node.childSchemas with
          | none => .error (fillPanicMsg tid "ChildSchemas() returned nil")
          | some cs =>
            cs.foldlM (fun g c =>
              match c with
              | none => Except.error (fillPanicMsg tid "found a nil child schema")
              | some ctid =>
                let g1 := appendChild g tid ctid
                if (graphKeys g1).contains ctid then Except.ok g1
                else fill env fuel g1 ctid) (lhmPut graph tid ⟨node.label, []⟩) := rfl

theorem foldlM_congr_except (f f' : SchemaGraph → Option String → Except String SchemaGraph)
    (I : SchemaGraph → Prop) :
    ∀ (cs : List (Option String)) (g : SchemaGraph),
      (∀ g1 c, c ∈ cs → I g1 → f g1 c = f' g1 c) →
      (∀ g1 c g2, c ∈ cs → I g1 → f g1 c = .ok g2 → I g2) →
      I g → cs.foldlM f g = cs.foldlM f' g := by
  intro cs
  induction cs with
  | nil => intro g _ _ _; rfl
  | cons c cs' ih =>
    intro g hstep hpres hI
    rw [List.foldlM_cons, List.foldlM_cons, ← hstep g c (List.mem_cons_self _ _) hI]
    cases hf : f g c with
    | error e => simp [Bind.bind, Except.bind]
    | ok g1 =>
      show Except.bind (Except.ok g1) _ = Except.bind (Except.ok g1) _
      simp only [Except.bind]
      exact ih g1 (fun ga ca hc => hstep ga ca (List.mem_cons_of_mem _ hc))
        (fun ga ca gb hc => hpres ga ca gb (List.mem_cons_of_mem _ hc))
        (hpres g c g1 (List.mem_cons_self _ _) hI hf)

theorem fill_stab (env : SchemaEnv) (hclosed : envClosed env = true) :
    ∀ fuel graph tid node, lookupEnv env tid = some node →
      (graphKeys graph).contains tid = false →
      freshCount env (graphKeys graph) ≤ fuel →
      fill env fuel graph tid = fill env (fuel + 1) graph tid := by
  intro fuel
  induction fuel with
  | zero =>
    intro graph tid node hlook hcont hfr
    obtain ⟨e, he, hetid, _⟩ := lookupEnv_mem env tid node hlook
    have := freshCount_pos env (graphKeys graph) tid ⟨e, he, hetid⟩ hcont
    omega
  | succ fuel ih =>
    intro graph tid node hlook hcont hfr
    rw [fill_succ env fuel graph tid, fill_succ env (fuel + 1) graph tid, hlook]
    simp only
    cases hl : node.listable with
    | false => rfl
    | true =>
      simp only [Bool.not_true, Bool.false_eq_true, if_false]
      cases hcs : node.childSchemas with
      | none => rfl
      | some cs =>
        obtain ⟨e, he, hetid, henode⟩ := lookupEnv_mem env tid node hlook
        have hkeys1 : graphKeys (lhmPut graph tid ⟨node.label, []⟩) =
            graphKeys graph ++ [tid] := graphKeys_lhmPut_new _ _ _ hcont
        have hI1 : freshCount env (graphKeys (lhmPut graph tid ⟨node.label, []⟩)) ≤ fuel := by
          rw [hkeys1]
          have := freshCount_append_lt env (graphKeys graph) tid ⟨e, he, hetid⟩ hcont
          omega
        refine foldlM_congr_except _ _
          (fun g => freshCount env (graphKeys g) ≤ fuel) cs _ ?_ ?_ hI1
        · intro g1 c hc hI
          cases c with
          | none => rfl
          | some ctid =>
            simp only
            by_cases hcont2 : (graphKeys (appendChild g1 tid ctid)).contains ctid = true
            · rw [if_pos hcont2, if_pos hcont2]
            · rw [if_neg hcont2, if_neg hcont2]
              obtain ⟨node', hnode'⟩ := envClosed_child env hclosed e he cs
                (by rw [henode]; exact hcs) ctid hc
              refine ih _ ctid node' hnode' ?_ ?_
              · cases h2 : (graphKeys (appendChild g1 tid ctid)).contains ctid with
                | false => rfl
                | true => exact absurd h2 hcont2
              · rw [graphKeys_appendChild]
                exact hI
        · intro g1 c g2 hc hI hstep
          cases c with
          | none => exact absurd hstep (by simp)
          | some ctid =>
            simp only at hstep
            by_cases hcont2 : (graphKeys (appendChild g1 tid ctid)).contains ctid = true
            · rw [if_pos hcont2] at hstep
              cases hstep
              rw [graphKeys_appendChild]
              exact hI
            · rw [if_neg hcont2] at hstep
              have hext := fill_keysExt env fuel _ _ _ hstep
              have hsub := keysExt_subset hext
              rw [graphKeys_appendChild] at hsub
              exact le_trans (freshCount_le_of_subset env _ _ hsub) hI

theorem fill_stab_ge (env : SchemaEnv) (root : String) (node : SchemaNode)
    (hclosed : envClosed env = true) (hlook : lookupEnv env root = some node) :
    ∀ fuel, env.length + 1 ≤ fuel →
      fill env fuel [] root = fill env (env.length + 1) [] root := by
  intro fuel
  induction fuel with
  | zero => intro h; omega
  | succ fuel ih =>
    intro h
    by_cases heq : env.length + 1 = fuel + 1
    · rw [heq]
    · have hlt : env.length + 1 ≤ fuel := by omega
      have hstep := fill_stab env hclosed fuel [] root node hlook rfl
        (le_trans (freshCount_le_length env []) (by omega))
      rw [← hstep]
      exact ih hlt

theorem fillChildren_keysExt (env : SchemaEnv) (fuel : Nat) (tid : String)
    (cs : List (Option String)) (g0 g' : SchemaGraph)
    (h : cs.foldlM (fun g c =>
        match c with
        | none => Except.error (fillPanicMsg tid "found a nil child schema")
        | some ctid =>
          let g1 := appendChild g tid ctid
          if (graphKeys g1).contains ctid then Except.ok g1
          else fill env fuel g1 ctid) g0 = .ok g') : keysExt g0 g' := by
  refine foldlM_inv _ (keysExt g0) cs _ _ ?_ (keysExt_refl _) h
  intro g1 c g2 _ hI hstep
  cases c with
  | none => exact absurd hstep (by simp)
  | some ctid =>
    simp only at hstep
    by_cases hcont : (graphKeys (appendChild g1 tid ctid)).contains ctid = true
    · rw [if_pos hcont] at hstep
      cases hstep
      exact keysExt_trans hI (keysExt_of_eq (graphKeys_appendChild g1 tid ctid))
    · rw [if_neg hcont] at hstep
      exact keysExt_trans hI (keysExt_trans
        (keysExt_of_eq (graphKeys_appendChild g1 tid ctid))
        (fill_keysExt env fuel _ _ _ hstep))

/-- **C3** — Marshalling an entry's schema graph walks it from the root into
an insertion-ordered map: the first key of the marshalled mapping is the
root's type-id and iteration order is insertion order (the graph is an
ordered association list); each child type-id is inserted into the graph at
most once (the key list of any assembly result has no duplicates); and
because recursive references are resolved by type-id equality, the assembly
terminates even on cyclic schema graphs: any fuel of at least the number of
schema nodes (plus one) yields the same result as `marshalSchemaGraph`. -/
theorem claim_C3_schema_graph :
    (∀ (env : SchemaEnv) (root : String) (node : SchemaNode) (fuel : Nat) (g : SchemaGraph),
      lookupEnv env root = some node → fill env fuel [] root = .ok g →
      (graphKeys g).head? = some root)
    ∧ (∀ (env : SchemaEnv) (root : String) (fuel : Nat) (g : SchemaGraph),
        fill env fuel [] root = .ok g → (graphKeys g).Nodup)
    ∧ (∀ (env : SchemaEnv) (root : String) (node : SchemaNode),
        envClosed env = true → lookupEnv env root = some node →
        ∀ fuel, env.length + 1 ≤ fuel →
          fill env fuel [] root = marshalSchemaGraph env root) := by
  refine ⟨?_, ?_, ?_⟩
  · intro env root node fuel g hlook h
    cases fuel with
    | zero => exact absurd h (by simp [fill])
    | succ fuel =>
      rw [fill_succ env fuel [] root, hlook] at h
      simp only at h
      have hput : lhmPut [] root ⟨node.label, []⟩ = [(root, ⟨node.label, []⟩)] := rfl
      cases hl : node.listable with
      | false =>
        rw [hl] at h
        simp at h
        rw [← h, hput]
        rfl
      | true =>
        rw [hl] at h
        simp only [Bool.not_true, Bool.false_eq_true, if_false] at h
        cases hcs : node.childSchemas with
        | none => rw [hcs] at h; exact absurd h (by simp)
        | some cs =>
          rw [hcs] at h
          obtain ⟨ext, hext⟩ := fillChildren_keysExt env fuel root cs _ _ h
          rw [hput] at hext
          rw [hext]
          rfl
  · intro env root fuel g h
    exact fill_nodup env fuel [] root g h List.nodup_nil
  · intro env root node hclosed hlook fuel hge
    exact fill_stab_ge env root node hclosed hlook fuel hge

/-- A small cyclic schema environment: a directory kind whose children are
itself and a file kind (the docker `fs` shape from the source's godoc). -/
def dirEnv : SchemaEnv :=
  [("docker/fs/dir", ⟨"dir", true, some [some "docker/fs/dir", some "docker/fs/file"]⟩),
   ("docker/fs/file", ⟨"file", false, none⟩)]

/-- Witness for C3 at the concrete cyclic environment `dirEnv`. -/
theorem claim_C3_schema_graph_witness :
    ((graphKeys [("docker/fs/dir", (⟨"dir", ["docker/fs/dir", "docker/fs/file"]⟩ : SchemaRec)),
        ("docker/fs/file", ⟨"file", []⟩)]).head? = some "docker/fs/dir")
    ∧ ((graphKeys [("docker/fs/dir", (⟨"dir", ["docker/fs/dir", "docker/fs/file"]⟩ : SchemaRec)),
        ("docker/fs/file", ⟨"file", []⟩)]).Nodup)
    ∧ fill dirEnv 10 [] "docker/fs/dir" = marshalSchemaGraph dirEnv "docker/fs/dir" :=
  ⟨claim_C3_schema_graph.1 dirEnv "docker/fs/dir"
      ⟨"dir", true, some [some "docker/fs/dir", some "docker/fs/file"]⟩ 3
      [("docker/fs/dir", ⟨"dir", ["docker/fs/dir", "docker/fs/file"]⟩),
        ("docker/fs/file", ⟨"file", []⟩)] (by rfl) (by rfl),
    claim_C3_schema_graph.2.1 dirEnv "docker/fs/dir" 3
      [("docker/fs/dir", ⟨"dir", ["docker/fs/dir", "docker/fs/file"]⟩),
        ("docker/fs/file", ⟨"file", []⟩)] (by rfl),
    claim_C3_schema_graph.2.2 dirEnv "docker/fs/dir"
      ⟨"dir", true, some [some "docker/fs/dir", some "docker/fs/file"]⟩
      (by rfl) (by rfl) 10 (by decide)⟩

/-- **C6 (counterexample)** — The claim says a group-capable entry whose
`ChildSchemas()` returns no children makes assembly fail fatally.  A
group-capable (listable) entry returning an *empty, non-nil* child list
returns no children, yet `fill` succeeds: the code only panics when the
returned slice is nil. -/
theorem claim_C6_empty_children_counterexample :
    fill [("g", ⟨"glabel", true, some []⟩)] 2 [] "g" =
      .ok [("g", ⟨"glabel", []⟩)] := by rfl

/-- **C6 (amended)** — For every group-capable (listable) entry whose
`ChildSchemas()` returns *nil*, schema assembly fails fatally with a
diagnostic identifying the offending type-id, and likewise when the returned
list starts with a nil child schema; an empty non-nil list is accepted
silently (see the counterexample). -/
theorem claim_C6_child_schema_contract :
    (∀ (env : SchemaEnv) (tid : String) (node : SchemaNode) (fuel : Nat) (graph : SchemaGraph),
      lookupEnv env tid = some node → node.listable = true → node.childSchemas = none →
      fill env (fuel + 1) graph tid = .error (fillPanicMsg tid "ChildSchemas() returned nil"))
    ∧ (∀ (env : SchemaEnv) (tid : String) (node : SchemaNode) (fuel : Nat)
        (graph : SchemaGraph) (rest : List (Option String)),
        lookupEnv env tid = some node → node.listable = true →
        node.childSchemas = some (none :: rest) →
        fill env (fuel + 1) graph tid = .error (fillPanicMsg tid "found a nil child schema")) := by
  constructor
  · intro env tid node fuel graph hlook hl hcs
    rw [fill_succ env fuel graph tid, hlook]
    simp only [hl, hcs, Bool.not_true, Bool.false_eq_true, if_false]
  · intro env tid node fuel graph rest hlook hl hcs
    rw [fill_succ env fuel graph tid, hlook]
    simp only [hl, hcs, Bool.not_true, Bool.false_eq_true, if_false]
    rw [List.foldlM_cons]
    simp [Bind.bind, Except.bind]

/-- Witness for C6: the two amended failure modes at concrete environments. -/
theorem claim_C6_child_schema_contract_witness :
    fill [("p", ⟨"plabel", true, none⟩)] 5 [] "p" =
      .error (fillPanicMsg "p" "ChildSchemas() returned nil")
    ∧ fill [("q", ⟨"qlabel", true, some [none]⟩)] 5 [] "q" =
      .error (fillPanicMsg "q" "found a nil child schema") :=
  ⟨claim_C6_child_schema_contract.1 [("p", ⟨"plabel", true, none⟩)] "p"
      ⟨"plabel", true, none⟩ 4 [] (by rfl) (by rfl) (by rfl),
    claim_C6_child_schema_contract.2 [("q", ⟨"qlabel", true, some [none]⟩)] "q"
      ⟨"qlabel", true, some [none]⟩ 4 [] [] (by rfl) (by rfl) (by rfl)⟩

/-- **C7** — Constructing an entry schema with an empty label is a contract
violation: for every entry, `NewEntrySchema(e, "")` fails fatally (panic,
modelled as an error) and so never returns a schema object. -/
theorem claim_C7_empty_label :
    ∀ e : EntryRep, newEntrySchema e "" =
      .error "plugin.NewEntrySchema called with an empty label" :=
  fun _ => rfl

/-!
## Claim C8: the exec-backed volume filesystem against the /var/log fixture

The volume FS implementation (`volume.NewFS`, `volume.StatCmd`, the stat
output parser) is not under src — only its test suite is.  Modelled from the
spec: the backend's stat output is a list of (size, mode, path) records (the
parsed form of the fixture in `volume/fs_test.go`); listing a directory
returns the entries whose path is directly below it, a group exactly when
the mode has the directory bit (0x4000); reading a file issues one
`cat <path>` exec command and the returned reader reports the body's length
as its size.
-/

structure StatEntry where
  size : Nat
  mode : Nat
  path : String
deriving DecidableEq

/-- The parsed `/var/log` stat fixture from `volume/fs_test.go` (columns:
size, atime, mtime, ctime omitted; mode in hex; path). -/
def varLogFixture : List StatEntry :=
  [⟨96, 0x41ed, "/var/log/path"⟩,
   ⟨96, 0x41ed, "/var/log/path/has"⟩,
   ⟨96, 0x41ed, "/var/log/path/has/got"⟩,
   ⟨96, 0x41ed, "/var/log/path/has/got/some"⟩,
   ⟨0, 0x81a4, "/var/log/path/has/got/some/legs"⟩,
   ⟨96, 0x41ed, "/var/log/path1"⟩,
   ⟨0, 0x81a4, "/var/log/path1/a file"⟩,
   ⟨96, 0x41ed, "/var/log/path2"⟩,
   ⟨64, 0x41ed, "/var/log/path2/dir"⟩]

def isDirMode (m : Nat) : Bool := (m &&& 0x4000) != 0

/-- Strip a prefix from a character list, or fail. -/
def stripPrefixCh : List Char → List Char → Option (List Char)
  | [], rest => some rest
  | _ :: _, [] => none
  | p :: ps, c :: cs => if p == c then stripPrefixCh ps cs else none

/-- The name of `path` as a direct child of directory `base`, if it is one. -/
def childName (base path : String) : Option String :=
  match stripPrefixCh (base ++ "/").data path.data with
  | some rest =>
      if !rest.isEmpty && !rest.contains '/' then some (String.mk rest) else none
  | none => none

/-- Modelled from the spec: listing directory `base` of an exec-backed volume
filesystem returns, in fixture order, each direct child's name paired with
whether it is a group (directory). -/
def listVolumeDir (fixture : List StatEntry) (base : String) : List (String × Bool) :=
  fixture.filterMap (fun e => (childName base e.path).map (fun n => (n, isDirMode e.mode)))

/-- Modelled from the spec: opening a readable volume entry issues exactly
one `cat <path>` command. -/
def volumeReadCommand (path : String) : String × List String := ("cat", [path])

/-- Modelled from the spec: the reader reports the exec output body's length
as its size. -/
def volumeReadSize (body : String) : Nat := body.length

/-- **C8** — Against the fixed /var/log stat fixture: listing the filesystem
root returns exactly the three groups `path`, `path1`, `path2` in that
order; listing `path1` returns exactly one non-group (readable) entry
`a file`; opening it issues the single command `cat /var/log/path1/a file`;
and the reader reports size 5 for the body `hello`. -/
theorem claim_C8_volume_fixture :
    listVolumeDir varLogFixture "/var/log" =
      [("path", true), ("path1", true), ("path2", true)]
    ∧ listVolumeDir varLogFixture "/var/log/path1" = [("a file", false)]
    ∧ volumeReadCommand "/var/log/path1/a file" = ("cat", ["/var/log/path1/a file"])
    ∧ volumeReadSize "hello" = 5 := by
  refine ⟨by decide, by decide, rfl, rfl⟩

/-!
## Claim C10: the dataflow job-message reader (`gcp/dataflow.go`)

`dataflowReader` pulls pages of job messages from the API and serves them
through `io.Reader.Read`.  The remaining API responses are modelled as a
list of pages consumed in order by `Do()` (an empty list models a failing
`Do()`); the byte buffer is modelled by its length, and the bytes written
become the returned string (each copied message is written whole, so the
output length is the byte count `n`).
-/

structure JobMessage where
  time : String
  messageImportance : String
  messageText : String
deriving DecidableEq

/-- The formatted line `msg.Time + " " + msg.MessageImportance + " " +
msg.MessageText + "\n"` copied into the buffer. -/
def fmtMsg (m : JobMessage) : String :=
  m.time ++ " " ++ m.messageImportance ++ " " ++ m.messageText ++ "\n"

/-- `msgLen := len(msg.Time) + len(msg.MessageImportance) +
len(msg.MessageText) + 3`. -/
def msgLen (m : JobMessage) : Nat :=
  m.time.length + m.messageImportance.length + m.messageText.length + 3

structure MessagesPage where
  jobMessages : List JobMessage
  nextPageToken : String
deriving DecidableEq

structure DataflowReader where
  overflow : List JobMessage
  eof : Bool
  pages : List MessagesPage
deriving DecidableEq

inductive ReadErr where
  | eofErr
  | apiErr
deriving DecidableEq

def outMsgs (ms : List JobMessage) : String :=
  ms.foldr (fun m acc => fmtMsg m ++ acc) ""

def sumLen (ms : List JobMessage) : Nat := (ms.map msgLen).sum

def pagesMsgs (ps : List MessagesPage) : List JobMessage :=
  ps.foldr (fun p acc => p.jobMessages ++ acc) []

/-- `dataflowReader.consume`: greedily copy whole messages that fit into the
remaining buffer, stopping at the first message that does not fit; returns
the messages left over, the bytes written and their count. -/
def consume : List JobMessage → Nat → List JobMessage × String × Nat
  | [], _ => ([], "", 0)
  | m :: ms, space =>
    if msgLen m > space then (m :: ms, "", 0)
    else
      let r := consume ms (space - msgLen m)
      (r.1, fmtMsg m ++ r.2.1, msgLen m + r.2.2)

/-- The page loop of `dataflowReader.Read`: fetch the next page, consume it
into the remaining buffer space, set eof when the page token is empty, and
return as soon as overflow remains or eof is reached; a failing `Do()`
(exhausted page list) returns the API error. -/
def readPages : List MessagesPage → Nat →
    String × Option ReadErr × List JobMessage × Bool × List MessagesPage
  | [], _ => ("", some .apiErr, [], false, [])
  | pg :: rest, space =>
    let r := consume pg.jobMessages space
    let eofNow := pg.nextPageToken == ""
    if !r.1.isEmpty || eofNow then (r.2.1, none, r.1, eofNow, rest)
    else
      let t := readPages rest (space - r.2.2)
      (r.2.1 ++ t.1, t.2.1, t.2.2.1, t.2.2.2.1, t.2.2.2.2)

/-- `dataflowReader.Read`: drain pending overflow first (returning if any
remains), then report EOF if it was reached, otherwise loop over pages. -/
def dfRead (s : DataflowReader) (bufLen : Nat) :
    String × Option ReadErr × DataflowReader :=
  let r := consume s.overflow bufLen
  if !r.1.isEmpty then (r.2.1, none, ⟨r.1, s.eof, s.pages⟩)
  else if s.eof then (r.2.1, some .eofErr, ⟨[], s.eof, s.pages⟩)
  else
    let t := readPages s.pages (bufLen - r.2.2)
    (r.2.1 ++ t.1, t.2.1, ⟨t.2.2.1, t.2.2.2.1, t.2.2.2.2⟩)

/-! ### Reader lemmas -/

theorem sumLen_cons (m : JobMessage) (ms : List JobMessage) :
    sumLen (m :: ms) = msgLen m + sumLen ms := by
  simp [sumLen]

theorem outMsgs_cons (m : JobMessage) (ms : List JobMessage) :
    outMsgs (m :: ms) = fmtMsg m ++ outMsgs ms := rfl

theorem consume_all : ∀ (ms : List JobMessage) (space : Nat), sumLen ms ≤ space →
    consume ms space = ([], outMsgs ms, sumLen ms) := by
  intro ms
  induction ms with
  | nil => intro space _; rfl
  | cons m ms ih =>
    intro space hle
    rw [sumLen_cons] at hle
    have hfit : ¬(msgLen m > space) := by omega
    rw [consume, if_neg hfit, ih (space - msgLen m) (by omega)]
    rw [outMsgs_cons, sumLen_cons]

theorem string_empty_append (s : String) : "" ++ s = s := by
  cases s
  rfl

theorem sumLen_append (a b : List JobMessage) :
    sumLen (a ++ b) = sumLen a + sumLen b := by
  simp [sumLen]

theorem outMsgs_append (a b : List JobMessage) :
    outMsgs (a ++ b) = outMsgs a ++ outMsgs b := by
  induction a with
  | nil =>
    rw [List.nil_append]
    exact (string_empty_append (outMsgs b)).symm
  | cons m a' ih =>
    rw [List.cons_append, outMsgs_cons, outMsgs_cons, ih, String.append_assoc]

theorem pagesMsgs_cons (p : MessagesPage) (ps : List MessagesPage) :
    pagesMsgs (p :: ps) = p.jobMessages ++ pagesMsgs ps := rfl

theorem readPages_run :
    ∀ (P : List MessagesPage) (last : MessagesPage) (space : Nat),
      (∀ p ∈ P, p.nextPageToken ≠ "") → last.nextPageToken = "" →
      sumLen (pagesMsgs (P ++ [last])) ≤ space →
      readPages (P ++ [last]) space =
        (outMsgs (pagesMsgs (P ++ [last])), none, [], true, []) := by
  intro P
  induction P with
  | nil =>
    intro last space _ hlast hle
    rw [List.nil_append] at *
    have hmsgs : pagesMsgs [last] = last.jobMessages := by
      rw [pagesMsgs_cons]
      simp [pagesMsgs]
    rw [hmsgs] at hle
    rw [readPages, consume_all last.jobMessages space hle]
    have heof : (last.nextPageToken == "") = true := by rw [hlast]; rfl
    rw [heof, hmsgs]
    simp
  | cons p P' ih =>
    intro last space hP hlast hle
    rw [List.cons_append, pagesMsgs_cons, sumLen_append] at hle
    have hple : sumLen p.jobMessages ≤ space := by omega
    rw [List.cons_append, readPages, consume_all p.jobMessages space hple]
    have heof : (p.nextPageToken == "") = false :=
      beq_eq_false_iff_ne.mpr (hP p (List.mem_cons_self _ _))
    rw [heof]
    simp only [List.isEmpty_nil, Bool.not_true, Bool.false_or, Bool.false_eq_true, if_false]
    rw [ih last (space - sumLen p.jobMessages)
      (fun q hq => hP q (List.mem_cons_of_mem _ hq)) hlast (by omega)]
    simp only
    rw [pagesMsgs_cons, outMsgs_append]

/-- **C10** — The dataflow job-message reader emits each message exactly
once, in API page order, formatted as `Time + " " + MessageImportance +
" " + MessageText + "\n"` (a single sufficiently large read returns exactly
the concatenation of the formatted messages of every page, in order, and
ends the stream); after the last page (empty `NextPageToken`) is drained
every subsequent `Read` returns `io.EOF`; and when a single pending
message's formatted length exceeds the buffer, `Read` returns `(0, nil)`
leaving the message in the overflow. -/
theorem claim_C10_dataflow_reader :
    (∀ (P : List MessagesPage) (last : MessagesPage) (bufLen : Nat),
      (∀ p ∈ P, p.nextPageToken ≠ "") → last.nextPageToken = "" →
      sumLen (pagesMsgs (P ++ [last])) ≤ bufLen →
      dfRead ⟨[], false, P ++ [last]⟩ bufLen =
        (outMsgs (pagesMsgs (P ++ [last])), none, ⟨[], true, []⟩))
    ∧ (∀ m : JobMessage,
        fmtMsg m = m.time ++ " " ++ m.messageImportance ++ " " ++ m.messageText ++ "\n"
        ∧ (fmtMsg m).length = msgLen m)
    ∧ (∀ (ps : List MessagesPage) (bufLen : Nat),
        dfRead ⟨[], true, ps⟩ bufLen = ("", some .eofErr, ⟨[], true, ps⟩))
    ∧ (∀ (m : JobMessage) (ms : List JobMessage) (e : Bool) (ps : List MessagesPage)
        (bufLen : Nat), bufLen < msgLen m →
        dfRead ⟨m :: ms, e, ps⟩ bufLen = ("", none, ⟨m :: ms, e, ps⟩)) := by
  refine ⟨?_, ?_, fun ps bufLen => rfl, ?_⟩
  · intro P last bufLen hP hlast hle
    have hrp := readPages_run P last bufLen hP hlast hle
    unfold dfRead
    simp only [consume, List.isEmpty_nil, Bool.not_true, Bool.false_eq_true, if_false,
      Nat.sub_zero]
    rw [hrp]
    simp only
    rw [string_empty_append]
  · intro m
    refine ⟨rfl, ?_⟩
    have h1 : (" " : String).length = 1 := rfl
    have h2 : ("\n" : String).length = 1 := rfl
    simp only [fmtMsg, msgLen, String.length_append, h1, h2]
    omega
  · intro m ms e ps bufLen hlt
    have hc : consume (m :: ms) bufLen = (m :: ms, "", 0) := by
      rw [consume, if_pos (by omega)]
    unfold dfRead
    rw [hc]
    simp only [List.isEmpty_cons, Bool.not_false, if_true]

/-- Witness for C10: a two-page run returned whole by one large read, and a
too-small buffer leaving the message pending. -/
theorem claim_C10_dataflow_reader_witness :
    dfRead ⟨[], false, [⟨[⟨"t1", "BASIC", "a"⟩], "tok"⟩] ++ [⟨[⟨"t2", "BASIC", "b"⟩], ""⟩]⟩ 100 =
      (outMsgs (pagesMsgs ([⟨[⟨"t1", "BASIC", "a"⟩], "tok"⟩] ++ [⟨[⟨"t2", "BASIC", "b"⟩], ""⟩])),
        none, ⟨[], true, []⟩)
    ∧ dfRead ⟨[⟨"t1", "BASIC", "a"⟩], false, []⟩ 3 =
        ("", none, ⟨[⟨"t1", "BASIC", "a"⟩], false, []⟩) :=
  ⟨claim_C10_dataflow_reader.1 [⟨[⟨"t1", "BASIC", "a"⟩], "tok"⟩] ⟨[⟨"t2", "BASIC", "b"⟩], ""⟩
      100 (by decide) rfl (by decide),
    claim_C10_dataflow_reader.2.2.2 ⟨"t1", "BASIC", "a"⟩ [] false [] 3 (by decide)⟩
